import Mathlib

/-!
Verification of the NIZKP repository (a Schnorr-style discrete-log proof over
secp256k1, `src/main.rs`).

The development has two parts.

Part 1 is a concrete byte-level embedding of the code paths that manipulate
bytes: the SHA-256 hash (the `sha2::Sha256` collaborator, modelled in full),
the SEC1 point encodings used by k256's `GroupEncoding` (`to_affine().to_bytes()`
produces the 33-byte compressed encoding), `DLogProof::hash_points`,
`DLogProof::to_dict` and `DLogProof::from_dict` (including serde_json's
`Value::to_string` rendering that `from_dict` feeds to the byte decoders, and
the panicking slice-to-array conversions, modelled as `Option.none`).
Field elements and scalars are `Nat` with explicit `% p` / `% n`, matching the
machine representation (residues).  Jacobian projective points mirror k256's
`ProjectivePoint`; `toAffine` performs the field inversion exactly as k256 does
(Fermat exponentiation by `p - 2`).

Part 2 treats the curve group as the external collaborator the code delegates
to (`k256`): an arbitrary additive commutative group with a distinguished
generator whose order divides `n`, and an arbitrary challenge function standing
for `hash_points`.  `prove` and `verify` are transcribed over that interface;
the randomly sampled nonce `r` of `prove` is an explicit argument.
-/

set_option maxRecDepth 100000

/-- The secp256k1 base-field modulus `p` (k256 `FieldElement` modulus). -/
def pCurve : Nat := 0xfffffffffffffffffffffffffffffffffffffffffffffffffffffffefffffc2f

/-- The secp256k1 group order `n` (k256 `Scalar` modulus, `ORDER`). -/
def nOrd : Nat := 0xfffffffffffffffffffffffffffffffebaaedce6af48a03bbfd25e8cd0364141

/-- x-coordinate of the secp256k1 generator. -/
def genX : Nat := 0x79be667ef9dcbbac55a06295ce870b07029bfcdb2dce28d959f2815b16f81798

/-- y-coordinate of the secp256k1 generator. -/
def genY : Nat := 0x483ada7726a3c4655da4fbfc0e1108a8fd17b448a68554199c47d08ffb10d4b8

instance : NeZero nOrd := ⟨by decide⟩

/-- Big-endian fixed-width byte encoding of a natural number (width `w`).
Models `to_be_bytes` / the byte serialisations of field elements and scalars. -/
def beBytes (w v : Nat) : List Nat :=
  (List.range w).map fun i => v / 256 ^ (w - 1 - i) % 256

/-- Big-endian interpretation of a byte string as an unsigned integer. -/
def natOfBE (bs : List Nat) : Nat :=
  bs.foldl (fun a b => a * 256 + b) 0

/-- UTF-8 encoding of one character (models Rust `str::as_bytes` per char). -/
def utf8Char (c : Char) : List Nat :=
  let v := c.toNat
  if v < 128 then [v]
  else if v < 2048 then [192 + v / 64, 128 + v % 64]
  else if v < 65536 then [224 + v / 4096, 128 + v / 64 % 64, 128 + v % 64]
  else [240 + v / 262144, 128 + v / 4096 % 64, 128 + v / 64 % 64, 128 + v % 64]

/-- UTF-8 bytes of a string (models Rust `str::as_bytes`). -/
def strBytes (s : String) : List Nat :=
  (s.toList.map utf8Char).flatten

/-- Fuel-driven binary modular exponentiation; the fuel only bounds the
number of halvings of the exponent, so `fuel = e + 1` always suffices.
Structural recursion keeps it kernel-computable. -/
def powModGo : Nat → Nat → Nat → Nat → Nat → Nat
  | 0, _, _, _, acc => acc
  | fuel + 1, b, e, m, acc =>
    if e = 0 then acc
    else
      powModGo fuel (b * b % m) (e / 2) m (if e % 2 = 1 then acc * b % m else acc)

/-- Modular exponentiation `b ^ e mod m`. -/
def powMod (b e m : Nat) : Nat := powModGo (e + 1) (b % m) e m (1 % m)

/-- Base-field inversion as k256 computes it: Fermat exponentiation by
`p - 2` (`FieldElement::invert`).  `fieldInv 0 = 0`. -/
def fieldInv (a : Nat) : Nat := powMod a (pCurve - 2) pCurve

/-- k256 `ProjectivePoint`: Jacobian coordinates over the base field;
`z = 0` encodes the point at infinity.  Coordinates are residues mod `p`. -/
structure Jac where
  x : Nat
  y : Nat
  z : Nat
deriving DecidableEq

/-- `ProjectivePoint::GENERATOR`. -/
def gJac : Jac := ⟨genX, genY, 1⟩

/-- k256 `ProjectivePoint::to_affine`: `none` is the point at infinity,
otherwise `(X / Z^2, Y / Z^3)` in the base field. -/
def toAffine (P : Jac) : Option (Nat × Nat) :=
  if P.z % pCurve = 0 then none
  else
    let zi := fieldInv (P.z % pCurve)
    some (P.x * zi ^ 2 % pCurve, P.y * zi ^ 3 % pCurve)

/-- Equality of `ProjectivePoint`s as the code's `==` computes it
(k256 compares the affine forms, i.e. group-element equality). -/
def pointEq (P Q : Jac) : Prop := toAffine P = toAffine Q

instance (P Q : Jac) : Decidable (pointEq P Q) :=
  inferInstanceAs (Decidable (toAffine P = toAffine Q))

/-- SEC1 encoding of an affine point as produced by k256's
`GroupEncoding::to_bytes` on `AffinePoint`: the 33-byte *compressed* form —
tag `0x02`/`0x03` by y-parity followed by the 32 big-endian bytes of x;
the identity maps to 33 zero bytes. -/
def compressedBytes (a : Option (Nat × Nat)) : List Nat :=
  match a with
  | none => List.replicate 33 0
  | some (x, y) => (2 + y % 2) :: beBytes 32 x

/-- SEC1 *uncompressed* encoding `0x04 || x || y` (65 bytes), as produced by
`to_encoded_point(false)`; the identity is the single byte `0x00`. -/
def uncompressedBytes (a : Option (Nat × Nat)) : List Nat :=
  match a with
  | none => [0]
  | some (x, y) => 4 :: (beBytes 32 x ++ beBytes 32 y)

/-- SHA-256 round constants (decimal). -/
def shaK : List Nat :=
  [1116352408, 1899447441, 3049323471, 3921009573, 961987163, 1508970993,
   2453635748, 2870763221, 3624381080, 310598401, 607225278, 1426881987,
   1925078388, 2162078206, 2614888103, 3248222580, 3835390401, 4022224774,
   264347078, 604807628, 770255983, 1249150122, 1555081692, 1996064986,
   2554220882, 2821834349, 2952996808, 3210313671, 3336571891, 3584528711,
   113926993, 338241895, 666307205, 773529912, 1294757372, 1396182291,
   1695183700, 1986661051, 2177026350, 2456956037, 2730485921, 2820302411,
   3259730800, 3345764771, 3516065817, 3600352804, 4094571909, 275423344,
   430227734, 506948616, 659060556, 883997877, 958139571, 1322822218,
   1537002063, 1747873779, 1955562222, 2024104815, 2227730452, 2361852424,
   2428436474, 2756734187, 3204031479, 3329325298]

/-- SHA-256 initial hash state (decimal). -/
def shaH0 : List Nat :=
  [1779033703, 3144134277, 1013904242, 2773480762,
   1359893119, 2600822924, 528734635, 1541459225]

/-- 32-bit right rotation. -/
def rotr (x k : Nat) : Nat := ((x >>> k) ||| (x <<< (32 - k))) % 4294967296

/-- SHA-256 big sigma 0. -/
def bsig0 (x : Nat) : Nat := (rotr x 2) ^^^ ((rotr x 13) ^^^ (rotr x 22))

/-- SHA-256 big sigma 1. -/
def bsig1 (x : Nat) : Nat := (rotr x 6) ^^^ ((rotr x 11) ^^^ (rotr x 25))

/-- SHA-256 small sigma 0. -/
def ssig0 (x : Nat) : Nat := (rotr x 7) ^^^ ((rotr x 18) ^^^ (x >>> 3))

/-- SHA-256 small sigma 1. -/
def ssig1 (x : Nat) : Nat := (rotr x 17) ^^^ ((rotr x 19) ^^^ (x >>> 10))

/-- SHA-256 choice function. -/
def chFun (x y z : Nat) : Nat := (x &&& y) ^^^ ((x ^^^ 4294967295) &&& z)

/-- SHA-256 majority function. -/
def majFun (x y z : Nat) : Nat := (x &&& y) ^^^ ((x &&& z) ^^^ (y &&& z))

/-- Pack bytes into big-endian 32-bit words, four at a time. -/
def wordsOfBytes : List Nat → List Nat
  | a :: b :: c :: d :: rest =>
    (((a * 256 + b) * 256 + c) * 256 + d) :: wordsOfBytes rest
  | _ => []

/-- One message-schedule extension step: append `W[t]` computed from the last
16 words of the accumulated schedule. -/
def schedStep (acc : List Nat) : List Nat :=
  let l := acc.length
  let g := fun i => acc.getD (l - i) 0
  acc ++ [(ssig1 (g 2) + g 7 + ssig0 (g 15) + g 16) % 4294967296]

/-- Full 64-word message schedule from the 16 words of a block. -/
def sched (ws : List Nat) : List Nat :=
  (List.range 48).foldl (fun a _ => schedStep a) ws

/-- One SHA-256 compression round on the 8-word working state. -/
def shaRound (st : List Nat) (kw : Nat × Nat) : List Nat :=
  match st with
  | [a, b, c, d, e, f, g, hh] =>
    let t1 := (hh + bsig1 e + chFun e f g + kw.1 + kw.2) % 4294967296
    let t2 := (bsig0 a + majFun a b c) % 4294967296
    [(t1 + t2) % 4294967296, a, b, c, (d + t1) % 4294967296, e, f, g]
  | other => other

/-- Process one 64-byte block into the running hash state. -/
def procBlock (H : List Nat) (blk : List Nat) : List Nat :=
  (H.zip ((shaK.zip (sched (wordsOfBytes blk))).foldl shaRound H)).map
    fun ab => (ab.1 + ab.2) % 4294967296

/-- Split a byte string into 64-byte chunks (fuel-driven, structurally
recursive; `fuel = length` always suffices). -/
def chunksGo : Nat → List Nat → List (List Nat)
  | 0, _ => []
  | _, [] => []
  | fuel + 1, l => l.take 64 :: chunksGo fuel (l.drop 64)

/-- SHA-256 padding: `0x80`, zeros, and the 8-byte big-endian bit length. -/
def padBytes (msg : List Nat) : List Nat :=
  msg ++ 128 :: (List.replicate ((64 - (msg.length + 9) % 64) % 64) 0
    ++ beBytes 8 (msg.length * 8))

/-- SHA-256 of a byte string, as a list of 32 bytes (models `sha2::Sha256`). -/
def sha256 (msg : List Nat) : List Nat :=
  ((((chunksGo (padBytes msg).length (padBytes msg))).foldl procBlock shaH0).map
    (beBytes 4)).flatten

/-- k256 `<Scalar as Reduce<U256>>::reduce_bytes`: interpret 32 bytes as a
big-endian integer and subtract the order once if needed (exact reduction
because `2^256 < 2·n`). -/
def scalarReduce (bs : List Nat) : Nat :=
  if nOrd ≤ natOfBE bs then natOfBE bs - nOrd else natOfBE bs

/-- Test vector: SHA-256 of the empty string. -/
theorem sha256_empty_vector :
    sha256 [] =
      [0xe3, 0xb0, 0xc4, 0x42, 0x98, 0xfc, 0x1c, 0x14, 0x9a, 0xfb, 0xf4, 0xc8,
       0x99, 0x6f, 0xb9, 0x24, 0x27, 0xae, 0x41, 0xe4, 0x64, 0x9b, 0x93, 0x4c,
       0xa4, 0x95, 0x99, 0x1b, 0x78, 0x52, 0xb8, 0x55] := by decide

/-- Test vector: SHA-256 of `"abc"`. -/
theorem sha256_abc_vector :
    sha256 (strBytes "abc") =
      [0xba, 0x78, 0x16, 0xbf, 0x8f, 0x01, 0xcf, 0xea, 0x41, 0x41, 0x40, 0xde,
       0x5d, 0xae, 0x22, 0x23, 0xb0, 0x03, 0x61, 0xa3, 0x96, 0x17, 0x7a, 0x9c,
       0xb4, 0x10, 0xff, 0x61, 0xf2, 0x00, 0x15, 0xad] := by decide

/-- Sanity: the generator's affine form has the textbook coordinates
(`fieldInv 1 = 1` computes through the Fermat inversion). -/
theorem toAffine_generator : toAffine gJac = some (genX, genY) := by decide

/-- `DLogProof::hash_points`: stream the session id's bytes, the prover id's
4 big-endian bytes (`u32::to_be_bytes`), and each point's
`to_affine().to_bytes()` encoding into SHA-256, then reduce the digest with
`reduce_bytes`.  The hasher state is modelled as the byte string accumulated by
the successive `update` calls. -/
def hash_points (sid : String) (pid : Nat) (points : List Jac) : Nat :=
  scalarReduce (sha256
    (points.foldl (fun acc P => acc ++ compressedBytes (toAffine P))
      (strBytes sid ++ beBytes 4 pid)))

/-- Modelled from the claim's words, for comparison with `hash_points`: the
same algorithm but feeding each point's canonical *uncompressed* affine
encoding `0x04 || x || y` to the hash. -/
def hash_points_uncompressed (sid : String) (pid : Nat) (points : List Jac) : Nat :=
  natOfBE (sha256 (strBytes sid ++ beBytes 4 pid
    ++ (points.map fun P => uncompressedBytes (toAffine P)).flatten)) % nOrd

/-- A serde_json scalar value: `Null`, a number, or an array of numbers (the
shapes that appear in the proof interchange mapping). -/
inductive JLeaf where
  | null : JLeaf
  | num (k : Nat) : JLeaf
  | arr (ks : List Nat) : JLeaf
deriving DecidableEq

/-- A serde_json value one level up: an object mapping string keys to scalar
values, or a bare scalar value.  This covers every value `to_dict` produces and
every field access `from_dict` performs. -/
inductive JVal where
  | obj (fs : List (String × JLeaf)) : JVal
  | leaf (l : JLeaf) : JVal
deriving DecidableEq

/-- Decimal digits of `m`, least significant first (fuel-driven; `fuel = m + 1`
always suffices, and the result is never empty when `fuel > 0`). -/
def digitsGo : Nat → Nat → List Nat
  | 0, _ => []
  | fuel + 1, m => if m < 10 then [m] else m % 10 :: digitsGo fuel (m / 10)

/-- ASCII bytes of the decimal rendering of a number (serde_json style). -/
def decRepr (k : Nat) : List Nat :=
  ((digitsGo (k + 1) k).reverse).map (· + 48)

/-- Comma-separated join of rendered items (byte `44` is `,`). -/
def commaJoin : List (List Nat) → List Nat
  | [] => []
  | [x] => x
  | x :: y :: rest => x ++ 44 :: commaJoin (y :: rest)

/-- serde_json `Value::to_string` on a scalar value, as UTF-8 bytes: `null`,
a decimal number, or `[n1,n2,...]` with no spaces. -/
def rend : JLeaf → List Nat
  | .null => [110, 117, 108, 108]
  | .num k => decRepr k
  | .arr ks => 91 :: (commaJoin (ks.map decRepr) ++ [93])

/-- serde_json `Value` string indexing (`data["t"]`): field lookup on an
object, `Null` on a missing key or a non-object. -/
def getField (v : JVal) (key : String) : JLeaf :=
  match v with
  | .obj fs => (fs.lookup key).getD .null
  | .leaf _ => .null

/-- The proof artifact `DLogProof { t: ProjectivePoint, s: Scalar }`; the
scalar is carried as its canonical value mod `n`. -/
structure DLogProof where
  t : Jac
  s : Nat
deriving DecidableEq

/-- `DLogProof::to_dict`: a JSON object with the point's
`to_affine().to_bytes()` encoding under `"t"` and the scalar's 32-byte
big-endian `to_bytes` under `"s"`. -/
def to_dict (pf : DLogProof) : JVal :=
  .obj [("t", .arr (compressedBytes (toAffine pf.t))),
        ("s", .arr (beBytes 32 pf.s))]

/-- k256 `ProjectivePoint::from_bytes` on a 33-byte repr: all-zero bytes give
the identity; a `0x02`/`0x03` tag with a canonical x-coordinate decompresses
via the square root `alpha ^ ((p+1)/4)`; anything else fails (`CtOption` none,
modelled as the outer `none`). -/
def decodePoint (bs : List Nat) : Option (Option (Nat × Nat)) :=
  if bs = List.replicate 33 0 then some none
  else
    match bs with
    | tag :: rest =>
      if rest.length = 32 ∧ (tag = 2 ∨ tag = 3) ∧ natOfBE rest < pCurve then
        let x := natOfBE rest
        let alpha := (x ^ 3 + 7) % pCurve
        let y0 := powMod alpha ((pCurve + 1) / 4) pCurve
        if y0 ^ 2 % pCurve = alpha then
          some (some (x, if y0 % 2 = tag % 2 then y0 else (pCurve - y0) % pCurve))
        else none
      else none
    | [] => none

/-- Rebuild a `ProjectivePoint` from a decoded affine point (identity has
`z = 0`). -/
def jacOfAffine : Option (Nat × Nat) → Jac
  | none => ⟨0, 1, 0⟩
  | some (x, y) => ⟨x, y, 1⟩

/-- `DLogProof::from_dict`.  The code extracts `data["t"]`, renders it with
`Value::to_string`, and feeds those *text* bytes to
`ProjectivePoint::from_bytes` through a slice-to-`GenericArray` conversion
that panics unless the text is exactly 33 bytes; `.unwrap()` then panics on a
decode failure.  The same happens for `data["s"]` with the 32-byte
`reduce_bytes` input.  Every panic is modelled as `none`. -/
def from_dict (data : JVal) : Option DLogProof :=
  if (rend (getField data "t")).length = 33 then
    match decodePoint (rend (getField data "t")) with
    | none => none
    | some pt =>
      if (rend (getField data "s")).length = 32 then
        some ⟨jacOfAffine pt, scalarReduce (rend (getField data "s"))⟩
      else none
  else none

/-- Fixed-width big-endian encodings have the requested width. -/
theorem beBytes_length (w v : Nat) : (beBytes w v).length = w := by
  simp [beBytes]

/-- Every byte of a big-endian encoding is below 256. -/
theorem beBytes_lt (w v : Nat) : ∀ b ∈ beBytes w v, b < 256 := by
  intro b hb
  simp only [beBytes, List.mem_map, List.mem_range] at hb
  obtain ⟨i, _, rfl⟩ := hb
  exact Nat.mod_lt _ (by norm_num)

/-- Folding appends of encodings equals appending the flattened map. -/
theorem foldl_append_flatten {α β : Type} (f : α → List β) :
    ∀ (l : List α) (acc : List β),
      l.foldl (fun a x => a ++ f x) acc = acc ++ (l.map f).flatten := by
  intro l
  induction l with
  | nil => intro acc; simp
  | cons x xs ih => intro acc; simp [ih]

/-- The fuel-driven digit expansion is never empty when fuel is positive. -/
theorem digitsGo_len (fuel m : Nat) : 1 ≤ (digitsGo (fuel + 1) m).length := by
  unfold digitsGo
  split <;> simp

/-- A decimal rendering has at least one byte. -/
theorem decRepr_len (k : Nat) : 1 ≤ (decRepr k).length := by
  simpa [decRepr] using digitsGo_len k k

/-- A comma-join of nonempty renderings has at least an item plus a comma per
entry beyond the first. -/
theorem commaJoin_len :
    ∀ ls : List (List Nat), (∀ l ∈ ls, 1 ≤ l.length) →
      ls.length + (ls.length - 1) ≤ (commaJoin ls).length := by
  intro ls
  induction ls with
  | nil => intro h; simp [commaJoin]
  | cons x xs ih =>
    intro h
    cases xs with
    | nil => simpa [commaJoin] using h x (by simp)
    | cons y rest =>
      have hx : 1 ≤ x.length := h x (by simp)
      have ht := ih (fun l hl => h l (List.mem_cons_of_mem _ hl))
      rw [show commaJoin (x :: y :: rest) = x ++ 44 :: commaJoin (y :: rest) from rfl]
      simp only [List.length_append, List.length_cons] at ht ⊢
      omega

/-- Lower bound on the length of the rendered text of a JSON number array. -/
theorem rend_arr_len (ks : List Nat) :
    ks.length + (ks.length - 1) + 2 ≤ (rend (JLeaf.arr ks)).length := by
  have hall : ∀ l ∈ ks.map decRepr, 1 ≤ l.length := by
    intro l hl
    obtain ⟨k, _, rfl⟩ := List.mem_map.mp hl
    exact decRepr_len k
  have h := commaJoin_len (ks.map decRepr) hall
  simp only [rend, List.length_cons, List.length_append, List.length_map] at h ⊢
  omega

/-- The `GroupEncoding` point encoding is always 33 bytes. -/
theorem compressedBytes_length (a : Option (Nat × Nat)) :
    (compressedBytes a).length = 33 := by
  match a with
  | none => simp [compressedBytes]
  | some (x, y) => simp [compressedBytes, beBytes_length]

/-- One compression round preserves the state length. -/
theorem shaRound_length (st : List Nat) (kw : Nat × Nat) :
    (shaRound st kw).length = st.length := by
  unfold shaRound
  split <;> simp_all

/-- Folding compression rounds preserves the state length. -/
theorem foldl_shaRound_length (l : List (Nat × Nat)) :
    ∀ st : List Nat, (l.foldl shaRound st).length = st.length := by
  induction l with
  | nil => intro st; rfl
  | cons kw l ih => intro st; rw [List.foldl_cons, ih, shaRound_length]

/-- Block processing keeps an 8-word state. -/
theorem procBlock_length (H blk : List Nat) (h : H.length = 8) :
    (procBlock H blk).length = 8 := by
  unfold procBlock
  simp [List.length_zip, foldl_shaRound_length, h]

/-- Folding block processing keeps an 8-word state. -/
theorem foldl_procBlock_length (bs : List (List Nat)) :
    ∀ H : List Nat, H.length = 8 → (bs.foldl procBlock H).length = 8 := by
  induction bs with
  | nil => intro H h; exact h
  | cons b bs ih => intro H h; rw [List.foldl_cons]; exact ih _ (procBlock_length _ _ h)

/-- Flattening 4-byte encodings of a word list has length four words. -/
theorem flatten_beBytes_len (l : List Nat) :
    ((l.map (beBytes 4)).flatten).length = 4 * l.length := by
  induction l with
  | nil => simp
  | cons x xs ih =>
    simp only [List.map_cons, List.flatten_cons, List.length_append,
      beBytes_length, ih, List.length_cons]
    omega

/-- A SHA-256 digest is 32 bytes long. -/
theorem sha256_length (msg : List Nat) : (sha256 msg).length = 32 := by
  unfold sha256
  rw [flatten_beBytes_len, foldl_procBlock_length _ _ (by rfl)]

/-- Every byte of a SHA-256 digest is below 256. -/
theorem sha256_bytes_lt (msg : List Nat) : ∀ b ∈ sha256 msg, b < 256 := by
  intro b hb
  unfold sha256 at hb
  obtain ⟨l, hl, hbl⟩ := List.mem_flatten.mp hb
  obtain ⟨a, _, rfl⟩ := List.mem_map.mp hl
  exact beBytes_lt 4 a b hbl

/-- A byte string of genuine bytes reads below `256 ^ length`. -/
theorem natOfBE_lt :
    ∀ (bs : List Nat), (∀ b ∈ bs, b < 256) → natOfBE bs < 256 ^ bs.length := by
  suffices h : ∀ (bs : List Nat) (acc : Nat), (∀ b ∈ bs, b < 256) →
      bs.foldl (fun a b => a * 256 + b) acc < (acc + 1) * 256 ^ bs.length by
    intro bs hb
    simpa [natOfBE] using h bs 0 hb
  intro bs
  induction bs with
  | nil => intro acc h; simp
  | cons b bs ih =>
    intro acc h
    have hb0 : b < 256 := h b (by simp)
    have ih2 := ih (acc * 256 + b) (fun x hx => h x (by simp [hx]))
    rw [List.foldl_cons]
    calc bs.foldl (fun a c => a * 256 + c) (acc * 256 + b)
        < (acc * 256 + b + 1) * 256 ^ bs.length := ih2
      _ ≤ ((acc + 1) * 256) * 256 ^ bs.length :=
          Nat.mul_le_mul (by omega) (Nat.le_refl _)
      _ = (acc + 1) * 256 ^ (b :: bs).length := by
          simp [List.length_cons, Nat.pow_succ]
          ring

/-- The one-subtraction reduction of `reduce_bytes` is exact modular
reduction whenever the input is below `2 n`. -/
theorem scalarReduce_eq_mod (bs : List Nat) (h : natOfBE bs < 2 * nOrd) :
    scalarReduce bs = natOfBE bs % nOrd := by
  unfold scalarReduce
  split
  next hle => rw [Nat.mod_eq_sub_mod hle, Nat.mod_eq_of_lt (by omega)]
  next hlt => rw [Nat.mod_eq_of_lt (by omega)]

/-- C2: the claim as stated is false — `hash_points` does not feed the
uncompressed `0x04 || x || y` encodings to the hash.  At `sid = "sid"`,
`pid = 1`, `points = [G]`, the code's hash differs from the hash computed with
uncompressed encodings. -/
theorem hash_points_ne_uncompressed :
    hash_points "sid" 1 [gJac] ≠ hash_points_uncompressed "sid" 1 [gJac] := by
  decide

/-- C2 (amended): for every `sid`, `pid`, and ordered point list,
`hash_points` hashes, in order, the raw bytes of `sid`, the 4 big-endian bytes
of `pid`, then each point's 33-byte *compressed* SEC1 affine encoding, and
reduces the 32-byte digest as a big-endian unsigned integer modulo the group
order `n`. -/
theorem hash_points_algorithm (sid : String) (pid : Nat) (points : List Jac) :
    hash_points sid pid points =
      natOfBE (sha256 (strBytes sid ++ beBytes 4 pid
        ++ (points.map fun P => compressedBytes (toAffine P)).flatten)) % nOrd := by
  unfold hash_points
  rw [foldl_append_flatten]
  have hb : natOfBE (sha256 ((strBytes sid ++ beBytes 4 pid)
      ++ (points.map fun P => compressedBytes (toAffine P)).flatten)) < 2 * nOrd := by
    have h1 := natOfBE_lt _ (sha256_bytes_lt ((strBytes sid ++ beBytes 4 pid)
      ++ (points.map fun P => compressedBytes (toAffine P)).flatten))
    rw [sha256_length] at h1
    exact Nat.lt_trans h1 (by decide)
  rw [scalarReduce_eq_mod _ hb, List.append_assoc]

/-- C3: evaluating the decoder on the encoder's output at a concrete proof
(the generator with response 1): the decode path dies (Rust panics) at the
slice-to-array conversion, because the rendered JSON text of the byte array is
much longer than 33 bytes. -/
theorem from_dict_to_dict_generator :
    from_dict (to_dict ⟨gJac, 1⟩) = none := by decide

/-- C4: at a concrete malformed mapping (empty byte arrays under `"t"` and
`"s"`), decoding does not produce a typed error value — the code panics
(modelled `none`); no `DecodeError` type exists anywhere in the code. -/
theorem from_dict_malformed :
    from_dict (.obj [("t", .arr []), ("s", .arr [])]) = none := by decide

/-- C8: the claim as stated is false — the `"t"` field of `to_dict` holds the
33-byte compressed encoding, not the uncompressed affine encoding, already for
the proof `(G, 1)`. -/
theorem to_dict_t_not_uncompressed :
    getField (to_dict ⟨gJac, 1⟩) "t" ≠
      JLeaf.arr (uncompressedBytes (toAffine gJac)) := by decide

/-- C8 (amended): for every proof, `to_dict` produces a mapping with exactly
two fields, `"t"` holding the point's 33-byte compressed SEC1 affine encoding
and `"s"` holding the scalar's 32-byte big-endian encoding, so the encoded
output length is fixed at compressed-point length (33) plus scalar width (32). -/
theorem to_dict_format (pf : DLogProof) :
    to_dict pf = .obj [("t", .arr (compressedBytes (toAffine pf.t))),
                       ("s", .arr (beBytes 32 pf.s))] ∧
      (compressedBytes (toAffine pf.t)).length = 33 ∧
      (beBytes 32 pf.s).length = 32 :=
  ⟨rfl, compressedBytes_length _, beBytes_length _ _⟩

/-- C9: `hash_points` is well-defined on group elements — two point lists
whose corresponding entries are equal as group elements (equal affine forms,
regardless of the projective representation) hash to the same scalar, because
every point is normalised to affine form before encoding. -/
theorem hash_points_group_equal (sid : String) (pid : Nat) (ps qs : List Jac)
    (h : List.Forall₂ pointEq ps qs) :
    hash_points sid pid ps = hash_points sid pid qs := by
  unfold hash_points
  rw [foldl_append_flatten, foldl_append_flatten]
  have hmap : ps.map (fun P => compressedBytes (toAffine P))
      = qs.map (fun P => compressedBytes (toAffine P)) := by
    induction h with
    | nil => rfl
    | cons hpq _ ih =>
      unfold pointEq at hpq
      simp only [List.map_cons, ih, hpq]
  rw [hmap]

/-- A projective representation of the generator with `Z = 2`. -/
def gJacZ2 : Jac := ⟨4 * genX % pCurve, 8 * genY % pCurve, 2⟩

/-- Witness for C9: the `Z = 2` representation of the generator is equal to
the `Z = 1` representation as a group element, and the two singleton lists
hash identically. -/
theorem hash_points_group_equal_witness :
    List.Forall₂ pointEq [gJacZ2] [gJac] ∧
      hash_points "sid" 1 [gJacZ2] = hash_points "sid" 1 [gJac] := by
  have hpe : pointEq gJacZ2 gJac := by decide
  have hf : List.Forall₂ pointEq [gJacZ2] [gJac] :=
    List.Forall₂.cons hpe List.Forall₂.nil
  exact ⟨hf, hash_points_group_equal "sid" 1 _ _ hf⟩

/-- C10: for every proof, feeding `to_dict`'s output to `from_dict` reaches
the panicking conversion (the decoder re-parses the textual rendering of the
JSON byte array, which is at least 67 bytes, never the 33 the point decoder
demands), so decoding never returns a proof. -/
theorem from_dict_on_to_dict (pf : DLogProof) :
    from_dict (to_dict pf) = none := by
  have hget : getField (to_dict pf) "t"
      = JLeaf.arr (compressedBytes (toAffine pf.t)) := rfl
  have hc := compressedBytes_length (toAffine pf.t)
  have hlen := rend_arr_len (compressedBytes (toAffine pf.t))
  unfold from_dict
  rw [hget, if_neg (by omega)]

/-- Scalar multiplication of a curve point by a `Scalar`, as k256 computes it:
multiplication by the scalar's canonical representative. -/
def scalarMulPt {P : Type} [AddCommGroup P] (k : ZMod nOrd) (Q : P) : P :=
  k.val • Q

/-- The proof artifact over the collaborator group interface. -/
structure DLogProofG (P : Type) where
  t : P
  s : ZMod nOrd

/-- `DLogProof::prove` over the collaborator group: `chal` stands for the
challenge hash `hash_points`, `G` for `ProjectivePoint::GENERATOR`, and the
nonce `r` (sampled by `generate_random_number` in the code) is an explicit
argument.  `t = r·G`, `c = chal(sid, pid, [G, y, t])`, `s = r + c·x`. -/
def prove {P : Type} [AddCommGroup P] (chal : String → Nat → List P → ZMod nOrd)
    (G : P) (sid : String) (pid : Nat) (x : ZMod nOrd) (y : P) (r : ZMod nOrd) :
    DLogProofG P :=
  let t := scalarMulPt r G
  let c := chal sid pid [G, y, t]
  ⟨t, r + c * x⟩

/-- `DLogProof::verify` over the collaborator group: recompute
`c = chal(sid, pid, [G, y, proof.t])` from the proof's own `t` and accept iff
`s·G = t + c·y` as a group-element equality. -/
def verify {P : Type} [AddCommGroup P] [DecidableEq P]
    (chal : String → Nat → List P → ZMod nOrd) (G : P) (pf : DLogProofG P)
    (sid : String) (pid : Nat) (y : P) : Bool :=
  let c := chal sid pid [G, y, pf.t]
  decide (scalarMulPt pf.s G = pf.t + scalarMulPt c y)

/-- Multiples of a point annihilated by `n` only depend on the multiplier
mod `n`. -/
theorem nsmul_mod {P : Type} [AddCommGroup P] (Q : P) (hQ : nOrd • Q = 0)
    (m : Nat) : (m % nOrd) • Q = m • Q := by
  conv_rhs => rw [← Nat.div_add_mod m nOrd]
  rw [add_nsmul, mul_nsmul, hQ, smul_zero, zero_add]

/-- Scalar multiplication distributes over scalar addition on a point of
order dividing `n`. -/
theorem scalarMulPt_add {P : Type} [AddCommGroup P] (a b : ZMod nOrd) (Q : P)
    (hQ : nOrd • Q = 0) :
    scalarMulPt (a + b) Q = scalarMulPt a Q + scalarMulPt b Q := by
  unfold scalarMulPt
  rw [ZMod.val_add, nsmul_mod Q hQ, add_nsmul]

/-- Scalar multiplication is compatible with scalar multiplication on a point
of order dividing `n`. -/
theorem scalarMulPt_mul {P : Type} [AddCommGroup P] (a b : ZMod nOrd) (Q : P)
    (hQ : nOrd • Q = 0) :
    scalarMulPt (a * b) Q = scalarMulPt a (scalarMulPt b Q) := by
  unfold scalarMulPt
  rw [ZMod.val_mul, nsmul_mod Q hQ, ← smul_smul]

/-- C1: completeness — for every secret `x`, `y = x·G`, any `sid`, `pid`, and
any value of the random nonce `r`, a generated proof verifies, provided the
generator is annihilated by the group order `n` (the §6 collaborator
contract: `G` generates a group of prime order `n`).  The challenge function
is arbitrary, so this holds whatever the hash computes. -/
theorem prove_verify_complete {P : Type} [AddCommGroup P] [DecidableEq P]
    (chal : String → Nat → List P → ZMod nOrd) (G : P) (sid : String)
    (pid : Nat) (x r : ZMod nOrd) (hG : nOrd • G = 0) :
    verify chal G (prove chal G sid pid x (scalarMulPt x G) r) sid pid
      (scalarMulPt x G) = true := by
  unfold verify prove
  simp only [decide_eq_true_eq]
  rw [scalarMulPt_add _ _ _ hG, scalarMulPt_mul _ _ _ hG]

/-- Witness for C1, on the concrete order-`n` group `ZMod n` with generator 1,
a constant challenge 7, secret 5 and nonce 11. -/
theorem prove_verify_complete_witness :
    nOrd • (1 : ZMod nOrd) = 0 ∧
      verify (fun _ _ _ => 7) (1 : ZMod nOrd)
        (prove (fun _ _ _ => 7) 1 "sid" 1 5 (scalarMulPt 5 1) 11) "sid" 1
        (scalarMulPt 5 (1 : ZMod nOrd)) = true := by
  have hG : nOrd • (1 : ZMod nOrd) = 0 := by
    rw [nsmul_eq_mul, mul_one, ZMod.natCast_self]
  exact ⟨hG, prove_verify_complete (fun _ _ _ => 7) 1 "sid" 1 5 11 hG⟩

/-- C5: `verify` returns `true` exactly when `s·G = t + c·y` holds as a
group-element equality, with `c` recomputed from the proof's own `t` on the
ordered list `[G, y, t]`; `verify` is a total Boolean function (it never
raises). -/
theorem verify_accepts_iff {P : Type} [AddCommGroup P] [DecidableEq P]
    (chal : String → Nat → List P → ZMod nOrd) (G : P) (pf : DLogProofG P)
    (sid : String) (pid : Nat) (y : P) :
    verify chal G pf sid pid y = true ↔
      scalarMulPt pf.s G = pf.t + scalarMulPt (chal sid pid [G, y, pf.t]) y := by
  simp [verify]

/-- C6: `prove` returns the pair with commitment `t = r·G` and response
`s = r + c·x`, where `c` is the challenge on `[G, y, t]` in exactly that
order; it is a total function of every input, in particular of an arbitrary
`y` (no `y = x·G` precondition is checked and there is no error path). -/
theorem prove_fields {P : Type} [AddCommGroup P]
    (chal : String → Nat → List P → ZMod nOrd) (G : P) (sid : String)
    (pid : Nat) (x : ZMod nOrd) (y : P) (r : ZMod nOrd) :
    (prove chal G sid pid x y r).t = scalarMulPt r G ∧
      (prove chal G sid pid x y r).s
        = r + chal sid pid [G, y, (prove chal G sid pid x y r).t] * x :=
  ⟨rfl, rfl⟩
